import Mathlib

/-!
Verification of the `historybuffer` crate (src/lib.rs): a circular byte
history buffer addressed by monotonically increasing logical offsets.

Shallow embedding: bytes are `Nat`, `Vec<u8>` is `List Nat`, `usize` is
`Nat` (Rust `saturating_sub` is Lean's truncated subtraction `-` on `Nat`;
where the Rust code uses plain `-`, the invariants proved below show the
subtraction never underflows on reachable states).  `x[a..b]` on slices is
`subSlice`, and `dst[a..a+src.len()].copy_from_slice(src)` is `setSeg`.
-/

/-- Rust subSlice indexing `x[a..b]` (on the executed paths `a ≤ b ≤ x.len()`). -/
def subSlice (l : List Nat) (a b : Nat) : List Nat := (l.take b).drop a

/-- Rust `dst[a..a+src.len()].copy_from_slice(src)`: overwrite `dst`
starting at position `a` with the bytes of `src`.  (On the executed paths
the destination range lies inside `dst`, see the length lemmas below.) -/
def setSeg (dst : List Nat) (a : Nat) (src : List Nat) : List Nat :=
  dst.take a ++ src ++ dst.drop (a + src.length)

/-- The `HistoryBuffer` struct of src/lib.rs. -/
structure HistoryBuffer where
  buf : List Nat
  len : Nat
  mask : Nat
  next_running : Nat
deriving DecidableEq

/-- Loop of `next_power_of_two`: `while power < n && power < (1 << 30)
{ power <<= 1 }`.  `power` starts at 1 and doubles each iteration while it
stays below `2^30`, so the loop runs at most 30 iterations; it is modelled
by structural recursion on that iteration bound (the guard is exactly the
Rust loop condition, and 30 rounds always suffice to leave it). -/
def npotLoop (n : Nat) : Nat → Nat → Nat
  | 0, power => power
  | fuel + 1, power =>
    if power < n ∧ power < 2 ^ 30 then npotLoop n fuel (power * 2) else power

/-- Rust `fn next_power_of_two(n: usize) -> usize` of src/lib.rs. -/
def next_power_of_two (n : Nat) : Nat :=
  npotLoop n 30 1

namespace HistoryBuffer

/-- Rust `HistoryBuffer::new`.  Rust `x.clamp(2, 1 << 23)` is `min (max x 2) (2^23)`. -/
def new (min_buf_size : Nat) : HistoryBuffer :=
  let power_two_size := min (max (next_power_of_two min_buf_size) 2) (2 ^ 23)
  { buf := List.replicate power_two_size 0
    len := 0
    mask := power_two_size - 1
    next_running := 0 }

/-- Rust `HistoryBuffer::add`. -/
def add (hb : HistoryBuffer) (data : List Nat) : HistoryBuffer :=
  if data.isEmpty then hb
  else
    let buf_size := hb.buf.length
    let next_running := hb.next_running + data.length
    let len := min (hb.len + data.length) buf_size
    let inndx := (next_running - min data.length buf_size) &&& hb.mask
    let outdx := next_running &&& hb.mask
    let buf :=
      if outdx > inndx then
        let num := outdx - inndx
        setSeg hb.buf inndx (subSlice data 0 num)
      else
        let num := outdx + buf_size - inndx
        let wrap := data.length - outdx
        let buf1 := setSeg hb.buf inndx (subSlice data (data.length - num) wrap)
        setSeg buf1 0 (subSlice data wrap data.length)
    { buf := buf, len := len, mask := hb.mask, next_running := next_running }

/-- Rust `HistoryBuffer::clear`. -/
def clear (hb : HistoryBuffer) : HistoryBuffer :=
  { hb with len := 0 }

/-- Rust `HistoryBuffer::clear_at`; `saturating_sub` is `Nat` subtraction. -/
def clear_at (hb : HistoryBuffer) (new_start_index : Nat) : HistoryBuffer :=
  { hb with len := min (hb.next_running - new_start_index) hb.len }

/-- Rust `HistoryBuffer::get`. -/
def get (hb : HistoryBuffer) (index : Nat) : Option Nat :=
  if hb.next_running - hb.len ≤ index ∧ index < hb.next_running then
    some (hb.buf.getD (index &&& hb.mask) 0)
  else none

/-- Rust `HistoryBuffer::get_index`. -/
def get_index (hb : HistoryBuffer) : Nat :=
  hb.next_running - hb.len

/-- Rust `HistoryBuffer::get_last_index`. -/
def get_last_index (hb : HistoryBuffer) : Nat :=
  max (hb.next_running - 1) (hb.next_running - hb.len)

/-- Rust `HistoryBuffer::get_len`. -/
def get_len (hb : HistoryBuffer) : Nat :=
  hb.len

/-- Rust `HistoryBuffer::get_vec_and_index`. -/
def get_vec_and_index (hb : HistoryBuffer) (start_index max_len : Nat) :
    List Nat × Nat :=
  let buf_size := hb.buf.length
  let out := min (start_index + max_len) hb.next_running
  let inn := min (max start_index (hb.next_running - hb.len)) out
  let inndx := inn &&& hb.mask
  let outdx := out &&& hb.mask
  let num := out - inn
  let v : List Nat := List.replicate num 0
  if num = 0 then (v, 0)
  else
    if outdx > inndx then
      (setSeg v 0 (subSlice hb.buf inndx outdx), inn)
    else
      let v1 := setSeg v 0 (subSlice hb.buf inndx buf_size)
      (setSeg v1 (buf_size - inndx) (subSlice hb.buf 0 outdx), inn)

/-- Rust `HistoryBuffer::get_vec`. -/
def get_vec (hb : HistoryBuffer) (start_index max_len : Nat) : List Nat :=
  (hb.get_vec_and_index start_index max_len).1

/-- Rust `HistoryBuffer::get_recent`. -/
def get_recent (hb : HistoryBuffer) (max_len : Nat) : List Nat :=
  let len := min max_len hb.len
  let start := hb.next_running - len
  (hb.get_vec_and_index start len).1

/-- Rust `HistoryBuffer::last_byte`. -/
def last_byte (hb : HistoryBuffer) : Option Nat :=
  if 0 < hb.len then
    some (hb.buf.getD ((hb.next_running + hb.mask) &&& hb.mask) 0)
  else none

end HistoryBuffer

/-- The mutating operations of the public interface, for stating
properties of arbitrary call sequences. -/
inductive Op where
  | add (d : List Nat)
  | clear
  | clear_at (x : Nat)
deriving DecidableEq

/-- Apply one operation to a buffer. -/
def applyOp (hb : HistoryBuffer) : Op → HistoryBuffer
  | Op.add d => hb.add d
  | Op.clear => hb.clear
  | Op.clear_at x => hb.clear_at x

/-- Run a sequence of operations from left to right. -/
def runOps (hb : HistoryBuffer) (ops : List Op) : HistoryBuffer :=
  ops.foldl applyOp hb

/-- The full byte stream ever appended by a sequence of operations:
`clear`/`clear_at` do not contribute. -/
def history : List Op → List Nat
  | [] => []
  | Op.add d :: rest => d ++ history rest
  | Op.clear :: rest => history rest
  | Op.clear_at _ :: rest => history rest

/-! ### Helper lemmas about `setSeg`, `subSlice` and modular arithmetic -/

theorem setSeg_length (dst : List Nat) (a : Nat) (src : List Nat)
    (h : a + src.length ≤ dst.length) :
    (setSeg dst a src).length = dst.length := by
  simp only [setSeg, List.length_append, List.length_take, List.length_drop]
  omega

theorem setSeg_getD_lt (dst : List Nat) (a : Nat) (src : List Nat) (j : Nat)
    (ha : a ≤ dst.length) (hj : j < a) :
    (setSeg dst a src).getD j 0 = dst.getD j 0 := by
  simp only [setSeg, List.getD_eq_getElem?_getD, List.append_assoc]
  rw [List.getElem?_append_left (by rw [List.length_take_of_le ha]; omega),
    List.getElem?_take_of_lt hj]

theorem setSeg_getD_in (dst : List Nat) (a : Nat) (src : List Nat) (j : Nat)
    (ha : a ≤ dst.length) (h1 : a ≤ j) (h2 : j < a + src.length) :
    (setSeg dst a src).getD j 0 = src.getD (j - a) 0 := by
  simp only [setSeg, List.getD_eq_getElem?_getD, List.append_assoc]
  rw [List.getElem?_append_right (by rw [List.length_take_of_le ha]; omega),
    List.length_take_of_le ha,
    List.getElem?_append_left (by omega : j - a < src.length)]

theorem setSeg_getD_ge (dst : List Nat) (a : Nat) (src : List Nat) (j : Nat)
    (ha : a ≤ dst.length) (h1 : a + src.length ≤ j) :
    (setSeg dst a src).getD j 0 = dst.getD j 0 := by
  simp only [setSeg, List.getD_eq_getElem?_getD, List.append_assoc]
  rw [List.getElem?_append_right (by rw [List.length_take_of_le ha]; omega),
    List.getElem?_append_right (by rw [List.length_take_of_le ha]; omega),
    List.getElem?_drop, List.length_take_of_le ha]
  have hidx : a + src.length + (j - a - src.length) = j := by omega
  rw [hidx]

theorem subSlice_length (l : List Nat) (a b : Nat) (h : b ≤ l.length) :
    (subSlice l a b).length = b - a := by
  simp only [subSlice, List.length_drop, List.length_take]
  omega

theorem subSlice_getD (l : List Nat) (a b t : Nat) (ht : a + t < b) :
    (subSlice l a b).getD t 0 = l.getD (a + t) 0 := by
  simp only [subSlice, List.getD_eq_getElem?_getD]
  rw [List.getElem?_drop, List.getElem?_take_of_lt (by omega : a + t < b)]

theorem subSlice_zero_length (l : List Nat) :
    subSlice l 0 l.length = l := by
  simp [subSlice]

theorem add_mod_eq_of_lt (W t B : Nat) (h : W % B + t < B) :
    (W + t) % B = W % B + t := by
  have hB : 0 < B := by omega
  have ht : t < B := by omega
  rw [Nat.add_mod, Nat.mod_eq_of_lt ht, Nat.mod_eq_of_lt h]

theorem add_mod_eq_of_ge (W t B : Nat) (ht : t < B)
    (h : B ≤ W % B + t) :
    (W + t) % B = W % B + t - B := by
  have hr : W % B < B := Nat.mod_lt _ (by omega)
  rw [Nat.add_mod, Nat.mod_eq_of_lt ht, Nat.mod_eq_sub_mod h,
    Nat.mod_eq_of_lt (by omega)]

theorem mod_inj_on_window (B lo i j : Nat) (hB : 0 < B)
    (hi1 : lo ≤ i) (hi2 : i < lo + B) (hj1 : lo ≤ j) (hj2 : j < lo + B)
    (h : i % B = j % B) : i = j := by
  rcases Nat.le_total i j with hle | hle
  · have hdvd : B ∣ j - i := (Nat.modEq_iff_dvd' hle).1 h
    have := Nat.eq_zero_of_dvd_of_lt hdvd
    omega
  · have hdvd : B ∣ i - j := (Nat.modEq_iff_dvd' hle).1 h.symm
    have := Nat.eq_zero_of_dvd_of_lt hdvd
    omega

theorem sub_mod_self_eq (W B : Nat) (h : B ≤ W) : (W - B) % B = W % B :=
  (Nat.mod_eq_sub_mod h).symm

/-! ### The buffer update performed by `add`, in explicit modular form -/

/-- The new storage contents computed by `HistoryBuffer.add` on a non-empty
input, with `buf_size` named `B` and the mask operation already rewritten to
`% B` (valid once the mask is `B - 1` for a power of two `B`). -/
def ringWrite (buf d : List Nat) (W B : Nat) : List Nat :=
  if ((W + d.length) % B) > ((W + d.length - min d.length B) % B) then
    setSeg buf ((W + d.length - min d.length B) % B)
      (subSlice d 0 (((W + d.length) % B) - ((W + d.length - min d.length B) % B)))
  else
    setSeg
      (setSeg buf ((W + d.length - min d.length B) % B)
        (subSlice d
          (d.length - (((W + d.length) % B) + B - ((W + d.length - min d.length B) % B)))
          (d.length - ((W + d.length) % B))))
      0 (subSlice d (d.length - ((W + d.length) % B)) d.length)

theorem add_fields (hb : HistoryBuffer) (d : List Nat) (hde : d.isEmpty = false) :
    (hb.add d).next_running = hb.next_running + d.length ∧
    (hb.add d).mask = hb.mask ∧
    (hb.add d).len = min (hb.len + d.length) hb.buf.length ∧
    (hb.add d).buf =
      (if ((hb.next_running + d.length) &&& hb.mask) >
          ((hb.next_running + d.length - min d.length hb.buf.length) &&& hb.mask) then
        setSeg hb.buf ((hb.next_running + d.length - min d.length hb.buf.length) &&& hb.mask)
          (subSlice d 0 (((hb.next_running + d.length) &&& hb.mask) -
            ((hb.next_running + d.length - min d.length hb.buf.length) &&& hb.mask)))
      else
        setSeg
          (setSeg hb.buf ((hb.next_running + d.length - min d.length hb.buf.length) &&& hb.mask)
            (subSlice d
              (d.length - (((hb.next_running + d.length) &&& hb.mask) + hb.buf.length -
                ((hb.next_running + d.length - min d.length hb.buf.length) &&& hb.mask)))
              (d.length - ((hb.next_running + d.length) &&& hb.mask))))
          0 (subSlice d (d.length - ((hb.next_running + d.length) &&& hb.mask)) d.length)) := by
  rw [HistoryBuffer.add, hde]
  exact ⟨rfl, rfl, rfl, rfl⟩

theorem land_mask_eq_mod (hb : HistoryBuffer) (B : Nat) (hmask : hb.mask = B - 1)
    (hpow : ∃ k, B = 2 ^ k) (x : Nat) : x &&& hb.mask = x % B := by
  obtain ⟨k, rfl⟩ := hpow
  rw [hmask]
  exact Nat.and_pow_two_sub_one_eq_mod x k

theorem add_buf_eq_ringWrite (hb : HistoryBuffer) (d : List Nat) (B : Nat)
    (hbuf : hb.buf.length = B) (hmask : hb.mask = B - 1)
    (hpow : ∃ k, B = 2 ^ k) (hde : d.isEmpty = false) :
    (hb.add d).buf = ringWrite hb.buf d hb.next_running B := by
  obtain ⟨-, -, -, h4⟩ := add_fields hb d hde
  rw [h4]
  simp only [land_mask_eq_mod hb B hmask hpow, hbuf, ringWrite]

/-- Correctness of the write/wrap algorithm: the written window
`[W + n - min n B, W + n)` receives the corresponding bytes of `d`, every
other slot is untouched, and the storage length is preserved. -/
theorem ringWrite_spec (buf d : List Nat) (W B : Nat)
    (hB : 0 < B) (hbuf : buf.length = B) (hn : 0 < d.length) :
    (ringWrite buf d W B).length = B ∧
    (∀ i, W + d.length - min d.length B ≤ i → i < W + d.length →
       (ringWrite buf d W B).getD (i % B) 0 = d.getD (i - W) 0) ∧
    (∀ i, W + d.length - B ≤ i → i < W + d.length - min d.length B →
       (ringWrite buf d W B).getD (i % B) 0 = buf.getD (i % B) 0) := by
  have hrB : W % B < B := Nat.mod_lt _ hB
  rcases le_or_lt d.length B with hnB | hnB
  · -- the input fits in the storage: d.length ≤ B
    have hmin : min d.length B = d.length := Nat.min_eq_left hnB
    have hWn : W + d.length - d.length = W := by omega
    simp only [ringWrite, hmin, hWn]
    rcases Nat.lt_or_ge (W % B + d.length) B with h1 | h1
    · -- the destination window does not wrap
      have houtdx : (W + d.length) % B = W % B + d.length :=
        add_mod_eq_of_lt W d.length B h1
      rw [houtdx, if_pos (by omega)]
      have hnum : W % B + d.length - W % B = d.length := by omega
      rw [hnum, subSlice_zero_length]
      refine ⟨?_, ?_, ?_⟩
      · rw [setSeg_length buf _ d (by omega), hbuf]
      · intro i hi1 hi2
        have hmod : i % B = W % B + (i - W) := by
          have hiW : i = W + (i - W) := by omega
          conv_lhs => rw [hiW]
          rw [add_mod_eq_of_lt W (i - W) B (by omega)]
        rw [hmod, setSeg_getD_in buf _ d _ (by omega) (by omega) (by omega)]
        congr 1
        omega
      · intro i hi1 hi2
        have hiB : i % B < B := Nat.mod_lt _ hB
        rcases Nat.lt_or_ge (i % B) (W % B) with hlt | hge1
        · rw [setSeg_getD_lt buf _ d _ (by omega) hlt]
        rcases Nat.lt_or_ge (i % B) (W % B + d.length) with hmid | hge2
        · exfalso
          have hT : (W + (i % B - W % B)) % B = i % B := by
            rw [add_mod_eq_of_lt W _ B (by omega)]
            omega
          have heq := mod_inj_on_window B (W + d.length - B) i
            (W + (i % B - W % B)) hB (by omega) (by omega) (by omega)
            (by omega) (by rw [hT])
          omega
        · rw [setSeg_getD_ge buf _ d _ (by omega) (by omega)]
    · -- the destination window wraps around the end of the storage
      have houtdx : (W + d.length) % B = W % B + d.length - B := by
        rcases Nat.lt_or_ge d.length B with hlt | hge
        · exact add_mod_eq_of_ge W d.length B hlt h1
        · have hdB : d.length = B := by omega
          rw [hdB, Nat.add_mod_right]
          omega
      rw [houtdx, if_neg (by omega)]
      have hnum : W % B + d.length - B + B - W % B = d.length := by omega
      rw [hnum]
      have hzero : d.length - d.length = 0 := by omega
      rw [hzero]
      have hwrap : d.length - (W % B + d.length - B) = B - W % B := by omega
      rw [hwrap]
      have hs1 : (subSlice d 0 (B - W % B)).length = B - W % B := by
        rw [subSlice_length d 0 _ (by omega)]
        omega
      have hs2 : (subSlice d (B - W % B) d.length).length
          = d.length - (B - W % B) := by
        rw [subSlice_length d _ _ (le_refl _)]
      have hb1 : (setSeg buf (W % B) (subSlice d 0 (B - W % B))).length = B := by
        rw [setSeg_length buf _ _ (by omega), hbuf]
      refine ⟨?_, ?_, ?_⟩
      · rw [setSeg_length _ 0 _ (by omega), hb1]
      · intro i hi1 hi2
        rcases Nat.lt_or_ge (i - W) (B - W % B) with hcase | hcase
        · have hmod : i % B = W % B + (i - W) := by
            have hiW : i = W + (i - W) := by omega
            conv_lhs => rw [hiW]
            rw [add_mod_eq_of_lt W (i - W) B (by omega)]
          rw [hmod, setSeg_getD_ge _ 0 _ _ (by omega) (by omega),
            setSeg_getD_in buf _ _ _ (by omega) (by omega) (by omega)]
          have hidx : W % B + (i - W) - W % B = i - W := by omega
          rw [hidx, subSlice_getD d 0 _ _ (by omega)]
          congr 1
          omega
        · have hmod : i % B = W % B + (i - W) - B := by
            have hiW : i = W + (i - W) := by omega
            conv_lhs => rw [hiW]
            rw [add_mod_eq_of_ge W (i - W) B (by omega) (by omega)]
          rw [hmod, setSeg_getD_in _ 0 _ _ (by omega) (by omega) (by omega),
            Nat.sub_zero,
            subSlice_getD d (B - W % B) d.length _ (by omega)]
          congr 1
          omega
      · intro i hi1 hi2
        have hiB : i % B < B := Nat.mod_lt _ hB
        have hnotup : i % B < W % B := by
          by_contra hup
          push_neg at hup
          have hT : (W + (i % B - W % B)) % B = i % B := by
            rw [add_mod_eq_of_lt W _ B (by omega)]
            omega
          have heq := mod_inj_on_window B (W + d.length - B) i
            (W + (i % B - W % B)) hB (by omega) (by omega) (by omega)
            (by omega) (by rw [hT])
          omega
        have hnotlow : d.length - (B - W % B) ≤ i % B := by
          by_contra hlow
          push_neg at hlow
          have hT : (W + (i % B + (B - W % B))) % B = i % B := by
            rw [add_mod_eq_of_ge W _ B (by omega) (by omega)]
            omega
          have heq := mod_inj_on_window B (W + d.length - B) i
            (W + (i % B + (B - W % B))) hB (by omega) (by omega) (by omega)
            (by omega) (by rw [hT])
          omega
        rw [setSeg_getD_ge _ 0 _ _ (by omega) (by omega),
          setSeg_getD_lt buf _ _ _ (by omega) hnotup]
  · -- the input is longer than the storage: only its last B bytes are kept
    have hmin : min d.length B = B := Nat.min_eq_right (by omega)
    simp only [ringWrite, hmin]
    have hq : (W + d.length - B) % B = (W + d.length) % B :=
      sub_mod_self_eq (W + d.length) B (by omega)
    rw [hq, if_neg (by omega)]
    have hqB : (W + d.length) % B < B := Nat.mod_lt _ hB
    have hnum : (W + d.length) % B + B - (W + d.length) % B = B := by omega
    rw [hnum]
    have hs1 : (subSlice d (d.length - B) (d.length - (W + d.length) % B)).length
        = B - (W + d.length) % B := by
      rw [subSlice_length d _ _ (by omega)]
      omega
    have hs2 : (subSlice d (d.length - (W + d.length) % B) d.length).length
        = (W + d.length) % B := by
      rw [subSlice_length d _ _ (le_refl _)]
      omega
    have hb1 : (setSeg buf ((W + d.length) % B)
        (subSlice d (d.length - B) (d.length - (W + d.length) % B))).length = B := by
      rw [setSeg_length buf _ _ (by omega), hbuf]
    refine ⟨?_, ?_, ?_⟩
    · rw [setSeg_length _ 0 _ (by omega), hb1]
    · intro i hi1 hi2
      have hbase : (W + d.length - B) + (i - (W + d.length - B)) = i := by omega
      rcases Nat.lt_or_ge (i - (W + d.length - B)) (B - (W + d.length) % B)
        with hc | hc
      · have hmod : i % B = (W + d.length) % B + (i - (W + d.length - B)) := by
          conv_lhs => rw [← hbase]
          rw [add_mod_eq_of_lt _ _ B (by rw [hq]; omega), hq]
        rw [hmod, setSeg_getD_ge _ 0 _ _ (by omega) (by omega),
          setSeg_getD_in buf _ _ _ (by omega) (by omega) (by omega)]
        have hidx : (W + d.length) % B + (i - (W + d.length - B)) - (W + d.length) % B
            = i - (W + d.length - B) := by omega
        rw [hidx, subSlice_getD d (d.length - B) _ _ (by omega)]
        congr 1
        omega
      · have ht : i - (W + d.length - B) < B := by omega
        have hmod : i % B = (W + d.length) % B + (i - (W + d.length - B)) - B := by
          conv_lhs => rw [← hbase]
          rw [add_mod_eq_of_ge _ _ B ht (by rw [hq]; omega), hq]
        rw [hmod, setSeg_getD_in _ 0 _ _ (by omega) (by omega) (by omega),
          Nat.sub_zero,
          subSlice_getD d (d.length - (W + d.length) % B) d.length _ (by omega)]
        congr 1
        omega
    · intro i hi1 hi2
      omega

/-! ### Capacity normalization: `next_power_of_two` and `new` -/

theorem npotLoop_pow (n : Nat) :
    ∀ fuel j, ∃ i, j ≤ i ∧ npotLoop n fuel (2 ^ j) = 2 ^ i := by
  intro fuel
  induction fuel with
  | zero =>
    intro j
    exact ⟨j, le_refl j, rfl⟩
  | succ fuel ih =>
    intro j
    show ∃ i, j ≤ i ∧
      (if 2 ^ j < n ∧ 2 ^ j < 2 ^ 30 then npotLoop n fuel (2 ^ j * 2) else 2 ^ j)
        = 2 ^ i
    by_cases hg : 2 ^ j < n ∧ 2 ^ j < 2 ^ 30
    · rw [if_pos hg]
      have hp : (2:Nat) ^ j * 2 = 2 ^ (j + 1) := by rw [pow_succ]
      obtain ⟨i, hi, he⟩ := ih (j + 1)
      exact ⟨i, by omega, by rw [hp, he]⟩
    · rw [if_neg hg]
      exact ⟨j, le_refl j, rfl⟩

theorem npotLoop_ge (n : Nat) (hn30 : n ≤ 2 ^ 30) :
    ∀ fuel j, 30 ≤ fuel + j → n ≤ npotLoop n fuel (2 ^ j) := by
  intro fuel
  induction fuel with
  | zero =>
    intro j hj
    show n ≤ 2 ^ j
    have hle : (2:Nat) ^ 30 ≤ 2 ^ j := Nat.pow_le_pow_right (by omega) (by omega)
    omega
  | succ fuel ih =>
    intro j hj
    show n ≤
      (if 2 ^ j < n ∧ 2 ^ j < 2 ^ 30 then npotLoop n fuel (2 ^ j * 2) else 2 ^ j)
    by_cases hg : 2 ^ j < n ∧ 2 ^ j < 2 ^ 30
    · rw [if_pos hg]
      have hp : (2:Nat) ^ j * 2 = 2 ^ (j + 1) := by rw [pow_succ]
      rw [hp]
      exact ih (j + 1) (by omega)
    · rw [if_neg hg]
      omega

theorem npotLoop_le_pow (n c : Nat) (hc1 : n ≤ 2 ^ c) :
    ∀ fuel j, j ≤ c → npotLoop n fuel (2 ^ j) ≤ 2 ^ c := by
  intro fuel
  induction fuel with
  | zero =>
    intro j hj
    exact Nat.pow_le_pow_right (by omega) hj
  | succ fuel ih =>
    intro j hj
    show (if 2 ^ j < n ∧ 2 ^ j < 2 ^ 30 then npotLoop n fuel (2 ^ j * 2) else 2 ^ j)
      ≤ 2 ^ c
    by_cases hg : 2 ^ j < n ∧ 2 ^ j < 2 ^ 30
    · rw [if_pos hg]
      have hjc : j < c := by
        by_contra hjc
        push_neg at hjc
        have hcj : (2:Nat) ^ c ≤ 2 ^ j := Nat.pow_le_pow_right (by omega) hjc
        omega
      have hp : (2:Nat) ^ j * 2 = 2 ^ (j + 1) := by rw [pow_succ]
      rw [hp]
      exact ih (j + 1) (by omega)
    · rw [if_neg hg]
      exact Nat.pow_le_pow_right (by omega) hj

theorem npotLoop_ge_min (n : Nat) :
    ∀ fuel j, 30 ≤ fuel + j → min n (2 ^ 30) ≤ npotLoop n fuel (2 ^ j) := by
  intro fuel
  induction fuel with
  | zero =>
    intro j hj
    show min n (2 ^ 30) ≤ 2 ^ j
    have hle : (2:Nat) ^ 30 ≤ 2 ^ j := Nat.pow_le_pow_right (by omega) (by omega)
    omega
  | succ fuel ih =>
    intro j hj
    show min n (2 ^ 30) ≤
      (if 2 ^ j < n ∧ 2 ^ j < 2 ^ 30 then npotLoop n fuel (2 ^ j * 2) else 2 ^ j)
    by_cases hg : 2 ^ j < n ∧ 2 ^ j < 2 ^ 30
    · rw [if_pos hg]
      have hp : (2:Nat) ^ j * 2 = 2 ^ (j + 1) := by rw [pow_succ]
      rw [hp]
      exact ih (j + 1) (by omega)
    · rw [if_neg hg]
      omega

theorem npot_pow (n : Nat) : ∃ i, next_power_of_two n = 2 ^ i := by
  obtain ⟨i, -, he⟩ := npotLoop_pow n 30 0
  exact ⟨i, he⟩

theorem npot_ge (n : Nat) (h : n ≤ 2 ^ 30) : n ≤ next_power_of_two n :=
  npotLoop_ge n h 30 0 (by omega)

theorem npot_le_pow (n c : Nat) (h : n ≤ 2 ^ c) : next_power_of_two n ≤ 2 ^ c :=
  npotLoop_le_pow n c h 30 0 (by omega)

theorem npot_ge_min (n : Nat) : min n (2 ^ 30) ≤ next_power_of_two n :=
  npotLoop_ge_min n 30 0 (by omega)

theorem getD_append_left (l1 l2 : List Nat) (i : Nat) (h : i < l1.length) :
    (l1 ++ l2).getD i 0 = l1.getD i 0 := by
  simp only [List.getD_eq_getElem?_getD, List.getElem?_append_left h]

theorem getD_append_right (l1 l2 : List Nat) (i : Nat) (h : l1.length ≤ i) :
    (l1 ++ l2).getD i 0 = l2.getD (i - l1.length) 0 := by
  simp only [List.getD_eq_getElem?_getD, List.getElem?_append_right h]

theorem two_pow_max_eq (i : Nat) : max ((2:Nat) ^ i) 2 = 2 ^ (max i 1) := by
  rcases Nat.eq_zero_or_pos i with rfl | hi
  · norm_num
  · have h2 : (2:Nat) ≤ 2 ^ i := by
      calc (2:Nat) = 2 ^ 1 := (pow_one 2).symm
      _ ≤ 2 ^ i := Nat.pow_le_pow_right (by omega) hi
    rw [Nat.max_eq_left h2, Nat.max_eq_left hi]

theorem two_pow_min_eq (i j : Nat) : min ((2:Nat) ^ i) (2 ^ j) = 2 ^ (min i j) := by
  rcases Nat.le_total i j with h | h
  · rw [Nat.min_eq_left (Nat.pow_le_pow_right (by omega) h), Nat.min_eq_left h]
  · rw [Nat.min_eq_right (Nat.pow_le_pow_right (by omega) h), Nat.min_eq_right h]

theorem new_buf_length (c : Nat) :
    (HistoryBuffer.new c).buf.length
      = min (max (next_power_of_two c) 2) (2 ^ 23) := by
  simp [HistoryBuffer.new]

theorem new_mask (c : Nat) :
    (HistoryBuffer.new c).mask = min (max (next_power_of_two c) 2) (2 ^ 23) - 1 :=
  rfl

theorem new_len (c : Nat) : (HistoryBuffer.new c).len = 0 := rfl

theorem new_next_running (c : Nat) : (HistoryBuffer.new c).next_running = 0 := rfl

/-- The capacity produced by `new` is a power of two in `[2, 2^23]`. -/
theorem new_capacity_pow (c : Nat) :
    ∃ k, 1 ≤ k ∧ k ≤ 23 ∧ (HistoryBuffer.new c).buf.length = 2 ^ k := by
  obtain ⟨i, hi⟩ := npot_pow c
  refine ⟨min (max i 1) 23, by omega, by omega, ?_⟩
  rw [new_buf_length, hi, two_pow_max_eq,
    show (2:Nat) ^ 23 = 2 ^ (23:Nat) from rfl, two_pow_min_eq]

/-! ### The reachable-state invariant -/

/-- Invariant relating a buffer state to the stream `h` of all bytes ever
appended: the storage has power-of-two length `B`, the mask is `B - 1`, the
cursor equals the stream length, the retained length is bounded by both, and
every retained logical offset reads back the historical byte. -/
def BufInv (B : Nat) (hb : HistoryBuffer) (h : List Nat) : Prop :=
  hb.buf.length = B ∧ hb.mask = B - 1 ∧ (∃ k, B = 2 ^ k) ∧
  hb.next_running = h.length ∧ hb.len ≤ h.length ∧ hb.len ≤ B ∧
  (∀ i, hb.next_running - hb.len ≤ i → i < hb.next_running →
    hb.buf.getD (i % B) 0 = h.getD i 0)

theorem inv_add (B : Nat) (hb : HistoryBuffer) (h d : List Nat)
    (hinv : BufInv B hb h) : BufInv B (hb.add d) (h ++ d) := by
  obtain ⟨hbuf, hmask, hpow, hrun, hlenh, hlenB, hcont⟩ := hinv
  have hB : 0 < B := by
    obtain ⟨k, rfl⟩ := hpow
    exact Nat.two_pow_pos k
  rcases eq_or_ne d [] with rfl | hd
  · have hid : hb.add [] = hb := rfl
    rw [hid, List.append_nil]
    exact ⟨hbuf, hmask, hpow, hrun, hlenh, hlenB, hcont⟩
  · have hde : d.isEmpty = false := by
      cases d with
      | nil => exact absurd rfl hd
      | cons a l => rfl
    have hn : 0 < d.length := List.length_pos.mpr hd
    obtain ⟨hrun2, hmask2, hlen2, -⟩ := add_fields hb d hde
    have hbufw := add_buf_eq_ringWrite hb d B hbuf hmask hpow hde
    obtain ⟨hwlen, hwread, hwkeep⟩ := ringWrite_spec hb.buf d hb.next_running B hB hbuf hn
    rw [hbuf] at hlen2
    refine ⟨?_, ?_, hpow, ?_, ?_, ?_, ?_⟩
    · rw [hbufw]
      exact hwlen
    · rw [hmask2, hmask]
    · rw [hrun2, hrun, List.length_append]
    · rw [hlen2, List.length_append]
      omega
    · rw [hlen2]
      omega
    · intro i hi1 hi2
      rw [hrun2, hlen2] at hi1
      rw [hrun2] at hi2
      rw [hbufw]
      rcases Nat.lt_or_ge i (hb.next_running + d.length - min d.length B)
        with hcase | hcase
      · -- an old byte: the written window does not cover it
        have hnB : d.length ≤ B := by
          by_contra hnB2
          push_neg at hnB2
          have hmin2 : min d.length B = B := Nat.min_eq_right (by omega)
          omega
        have hmin : min d.length B = d.length := Nat.min_eq_left hnB
        rw [hwkeep i (by omega) hcase]
        have hiW : i < hb.next_running := by omega
        rw [hcont i (by omega) hiW, getD_append_left _ _ _ (by omega)]
      · -- a byte written by this call
        rw [hwread i hcase hi2, getD_append_right _ _ _ (by omega)]
        congr 1
        omega

theorem inv_clear (B : Nat) (hb : HistoryBuffer) (h : List Nat)
    (hinv : BufInv B hb h) : BufInv B hb.clear h := by
  obtain ⟨hbuf, hmask, hpow, hrun, hlenh, hlenB, hcont⟩ := hinv
  have hlen0 : hb.clear.len = 0 := rfl
  refine ⟨hbuf, hmask, hpow, hrun, by rw [hlen0]; omega, by rw [hlen0]; omega, ?_⟩
  intro i hi1 hi2
  have hrc : hb.clear.next_running = hb.next_running := rfl
  rw [hlen0] at hi1
  rw [hrc] at hi1 hi2
  omega

theorem inv_clear_at (B : Nat) (hb : HistoryBuffer) (h : List Nat) (x : Nat)
    (hinv : BufInv B hb h) : BufInv B (hb.clear_at x) h := by
  obtain ⟨hbuf, hmask, hpow, hrun, hlenh, hlenB, hcont⟩ := hinv
  have hlen : (hb.clear_at x).len = min (hb.next_running - x) hb.len := rfl
  have hrc : (hb.clear_at x).next_running = hb.next_running := rfl
  refine ⟨hbuf, hmask, hpow, hrun, by rw [hlen]; omega, by rw [hlen]; omega, ?_⟩
  intro i hi1 hi2
  rw [hlen, hrc] at hi1
  rw [hrc] at hi2
  exact hcont i (by omega) hi2

theorem inv_runOps (ops : List Op) : ∀ (B : Nat) (hb : HistoryBuffer) (h : List Nat),
    BufInv B hb h → BufInv B (runOps hb ops) (h ++ history ops) := by
  induction ops with
  | nil =>
    intro B hb h hinv
    simpa [runOps, history] using hinv
  | cons op rest ih =>
    intro B hb h hinv
    cases op with
    | add d =>
      have h1 : runOps hb (Op.add d :: rest) = runOps (hb.add d) rest := rfl
      have h2 : history (Op.add d :: rest) = d ++ history rest := rfl
      rw [h1, h2, ← List.append_assoc]
      exact ih B (hb.add d) (h ++ d) (inv_add B hb h d hinv)
    | clear =>
      exact ih B hb.clear h (inv_clear B hb h hinv)
    | clear_at x =>
      exact ih B (hb.clear_at x) h (inv_clear_at B hb h x hinv)

theorem inv_new (c : Nat) :
    BufInv ((HistoryBuffer.new c).buf.length) (HistoryBuffer.new c) [] := by
  obtain ⟨k, hk1, hk23, hkeq⟩ := new_capacity_pow c
  refine ⟨rfl, ?_, ⟨k, hkeq⟩, rfl, ?_, ?_, ?_⟩
  · rw [new_mask, new_buf_length]
  · rw [new_len]
    exact Nat.zero_le _
  · rw [new_len]
    omega
  · intro i hi1 hi2
    rw [new_next_running] at hi2
    omega

/-- Every state reachable from a fresh buffer satisfies the invariant with
respect to the stream of everything appended so far. -/
theorem reach_inv (c : Nat) (ops : List Op) :
    BufInv ((HistoryBuffer.new c).buf.length) (runOps (HistoryBuffer.new c) ops)
      (history ops) := by
  have h := inv_runOps ops _ (HistoryBuffer.new c) [] (inv_new c)
  simpa using h

/-! ### Specification of `get_vec_and_index` -/

/-- The `effective_end` of the clipped read window (the code's `out`). -/
def effEnd (hb : HistoryBuffer) (s m : Nat) : Nat :=
  min (s + m) hb.next_running

/-- The `effective_start` of the clipped read window (the code's `inn`). -/
def effStart (hb : HistoryBuffer) (s m : Nat) : Nat :=
  min (max s (hb.next_running - hb.len)) (effEnd hb s m)

theorem get_vec_and_index_eq (hb : HistoryBuffer) (s m : Nat) :
    hb.get_vec_and_index s m =
      (if effEnd hb s m - effStart hb s m = 0 then
        (List.replicate (effEnd hb s m - effStart hb s m) 0, 0)
      else if ((effEnd hb s m) &&& hb.mask) > ((effStart hb s m) &&& hb.mask) then
        (setSeg (List.replicate (effEnd hb s m - effStart hb s m) 0) 0
          (subSlice hb.buf ((effStart hb s m) &&& hb.mask) ((effEnd hb s m) &&& hb.mask)),
         effStart hb s m)
      else
        (setSeg
          (setSeg (List.replicate (effEnd hb s m - effStart hb s m) 0) 0
            (subSlice hb.buf ((effStart hb s m) &&& hb.mask) hb.buf.length))
          (hb.buf.length - ((effStart hb s m) &&& hb.mask))
          (subSlice hb.buf 0 ((effEnd hb s m) &&& hb.mask)),
         effStart hb s m)) := by
  rw [HistoryBuffer.get_vec_and_index]
  rfl

theorem setSeg_exact (v src : List Nat) (hv : v.length = src.length) :
    setSeg v 0 src = src := by
  simp only [setSeg, List.take_zero, List.nil_append, Nat.zero_add]
  rw [List.drop_of_length_le (by omega), List.append_nil]

/-- Full functional specification of `get_vec_and_index`: the result has
exactly `effEnd - effStart` bytes, byte `t` is read from physical slot
`(effStart + t) % B`, and the returned offset is `effStart` (or 0 when the
clipped window is empty). -/
theorem get_vec_and_index_spec (hb : HistoryBuffer) (B : Nat)
    (hbuf : hb.buf.length = B) (hmask : hb.mask = B - 1)
    (hpow : ∃ k, B = 2 ^ k) (hlenB : hb.len ≤ B) (s m : Nat) :
    (hb.get_vec_and_index s m).1.length = effEnd hb s m - effStart hb s m ∧
    (∀ t, t < effEnd hb s m - effStart hb s m →
       (hb.get_vec_and_index s m).1.getD t 0
         = hb.buf.getD ((effStart hb s m + t) % B) 0) ∧
    (hb.get_vec_and_index s m).2
      = (if effEnd hb s m - effStart hb s m = 0 then 0 else effStart hb s m) := by
  have hB : 0 < B := by
    obtain ⟨k, rfl⟩ := hpow
    exact Nat.two_pow_pos k
  have hland := land_mask_eq_mod hb B hmask hpow
  have hend_def : effEnd hb s m = min (s + m) hb.next_running := rfl
  have hstart_def : effStart hb s m
      = min (max s (hb.next_running - hb.len)) (effEnd hb s m) := rfl
  by_cases hnum : effEnd hb s m - effStart hb s m = 0
  · have hv : hb.get_vec_and_index s m
        = (List.replicate (effEnd hb s m - effStart hb s m) 0, 0) := by
      rw [get_vec_and_index_eq, if_pos hnum]
    rw [hv]
    refine ⟨List.length_replicate _ _, ?_, ?_⟩
    · intro t ht
      omega
    · rw [if_pos hnum]
  · have hnum_pos : 0 < effEnd hb s m - effStart hb s m := Nat.pos_of_ne_zero hnum
    have hrB : effStart hb s m % B < B := Nat.mod_lt _ hB
    have hnum_le : effEnd hb s m - effStart hb s m ≤ B := by omega
    have hout_eq : effEnd hb s m
        = effStart hb s m + (effEnd hb s m - effStart hb s m) := by omega
    rcases Nat.lt_or_ge (effStart hb s m % B + (effEnd hb s m - effStart hb s m)) B
      with hw | hw
    · -- the source window does not wrap around the storage
      have houtdx : effEnd hb s m % B
          = effStart hb s m % B + (effEnd hb s m - effStart hb s m) := by
        conv_lhs => rw [hout_eq]
        rw [add_mod_eq_of_lt _ _ _ hw]
      have hcond : ((effEnd hb s m) &&& hb.mask) > ((effStart hb s m) &&& hb.mask) := by
        rw [hland, hland, houtdx]
        omega
      have hslen : (subSlice hb.buf ((effStart hb s m) &&& hb.mask)
          ((effEnd hb s m) &&& hb.mask)).length
          = effEnd hb s m - effStart hb s m := by
        rw [hland, hland, houtdx, subSlice_length _ _ _ (by omega)]
        omega
      have hv1 : (hb.get_vec_and_index s m).1
          = subSlice hb.buf ((effStart hb s m) &&& hb.mask)
              ((effEnd hb s m) &&& hb.mask) := by
        rw [get_vec_and_index_eq, if_neg hnum, if_pos hcond]
        exact setSeg_exact _ _ (by rw [List.length_replicate, hslen])
      have hv2 : (hb.get_vec_and_index s m).2 = effStart hb s m := by
        rw [get_vec_and_index_eq, if_neg hnum, if_pos hcond]
      refine ⟨by rw [hv1, hslen], ?_, by rw [hv2, if_neg hnum]⟩
      intro t ht
      have hmod : (effStart hb s m + t) % B = effStart hb s m % B + t := by
        rw [add_mod_eq_of_lt _ _ _ (by omega)]
      rw [hv1, hland, hland, houtdx, subSlice_getD _ _ _ _ (by omega), hmod]
    · -- the source window wraps around the storage
      have houtdx : effEnd hb s m % B
          = effStart hb s m % B + (effEnd hb s m - effStart hb s m) - B := by
        conv_lhs => rw [hout_eq]
        rcases Nat.lt_or_ge (effEnd hb s m - effStart hb s m) B with hlt | hge
        · rw [add_mod_eq_of_ge _ _ _ hlt hw]
        · have hnB : effEnd hb s m - effStart hb s m = B := by omega
          rw [hnB, Nat.add_mod_right]
          omega
      have hcond : ¬(((effEnd hb s m) &&& hb.mask) > ((effStart hb s m) &&& hb.mask)) := by
        rw [hland, hland, houtdx]
        omega
      have hv1 : (hb.get_vec_and_index s m).1
          = setSeg
              (setSeg (List.replicate (effEnd hb s m - effStart hb s m) 0) 0
                (subSlice hb.buf ((effStart hb s m) &&& hb.mask) hb.buf.length))
              (hb.buf.length - ((effStart hb s m) &&& hb.mask))
              (subSlice hb.buf 0 ((effEnd hb s m) &&& hb.mask)) := by
        rw [get_vec_and_index_eq, if_neg hnum, if_neg hcond]
      have hv2 : (hb.get_vec_and_index s m).2 = effStart hb s m := by
        rw [get_vec_and_index_eq, if_neg hnum, if_neg hcond]
      rw [hland, hland, hbuf, houtdx] at hv1
      have hs1 : (subSlice hb.buf (effStart hb s m % B) B).length
          = B - effStart hb s m % B := by
        rw [subSlice_length _ _ _ (by omega)]
      have hs2 : (subSlice hb.buf 0
          (effStart hb s m % B + (effEnd hb s m - effStart hb s m) - B)).length
          = effStart hb s m % B + (effEnd hb s m - effStart hb s m) - B := by
        rw [subSlice_length _ _ _ (by omega)]
        omega
      have hv1len : (setSeg (List.replicate (effEnd hb s m - effStart hb s m) 0) 0
          (subSlice hb.buf (effStart hb s m % B) B)).length
          = effEnd hb s m - effStart hb s m := by
        rw [setSeg_length _ _ _ (by rw [hs1, List.length_replicate]; omega),
          List.length_replicate]
      refine ⟨?_, ?_, by rw [hv2, if_neg hnum]⟩
      · rw [hv1, setSeg_length _ _ _ (by rw [hs2, hv1len]; omega), hv1len]
      · intro t ht
        rw [hv1]
        rcases Nat.lt_or_ge t (B - effStart hb s m % B) with hc | hc
        · rw [setSeg_getD_lt _ _ _ _ (by rw [hv1len]; omega) (by omega),
            setSeg_getD_in _ _ _ _ (by omega) (by omega)
              (by rw [hs1]; omega),
            Nat.sub_zero,
            subSlice_getD _ _ _ _ (by omega)]
          have hmod : (effStart hb s m + t) % B = effStart hb s m % B + t := by
            rw [add_mod_eq_of_lt _ _ _ (by omega)]
          rw [hmod]
        · rw [setSeg_getD_in _ _ _ _ (by rw [hv1len]; omega) hc
              (by rw [hs2]; omega),
            subSlice_getD _ _ _ _ (by omega)]
          have hmod : (effStart hb s m + t) % B
              = effStart hb s m % B + t - B := by
            rw [add_mod_eq_of_ge _ _ _ (by omega) (by omega)]
          rw [hmod]
          congr 1
          omega

theorem list_eq_of_getD (l1 l2 : List Nat) (hlen : l1.length = l2.length)
    (h : ∀ t, t < l1.length → l1.getD t 0 = l2.getD t 0) : l1 = l2 := by
  apply List.ext_getElem?
  intro i
  by_cases hi : i < l1.length
  · have hgd := h i hi
    simp only [List.getD_eq_getElem?_getD] at hgd
    rw [List.getElem?_eq_getElem hi, List.getElem?_eq_getElem (by omega : i < l2.length)]
    rw [List.getElem?_eq_getElem hi, List.getElem?_eq_getElem (by omega : i < l2.length)] at hgd
    simpa using hgd
  · rw [List.getElem?_eq_none (by omega), List.getElem?_eq_none (by omega)]

theorem get_recent_eq (hb : HistoryBuffer) (max_len : Nat) :
    hb.get_recent max_len
      = (hb.get_vec_and_index (hb.next_running - min max_len hb.len)
          (min max_len hb.len)).1 := by
  rw [HistoryBuffer.get_recent]

/-! ### Claim theorems -/

/-- C3: for every requested `min_capacity` up to `2^23` the constructed
capacity is the smallest power of two that is `≥ min_capacity` and `≥ 2`;
above `2^23` it is silently capped at `2^23`; and it is always a power of
two in `[2, 2^23]`. -/
theorem C3_capacity_normalization (n : Nat) :
    ((∃ j, (HistoryBuffer.new n).buf.length = 2 ^ j) ∧
      2 ≤ (HistoryBuffer.new n).buf.length ∧
      (HistoryBuffer.new n).buf.length ≤ 2 ^ 23) ∧
    (n ≤ 2 ^ 23 →
      n ≤ (HistoryBuffer.new n).buf.length ∧
      ∀ c, n ≤ 2 ^ c → 2 ≤ 2 ^ c → (HistoryBuffer.new n).buf.length ≤ 2 ^ c) ∧
    (2 ^ 23 < n → (HistoryBuffer.new n).buf.length = 2 ^ 23) := by
  obtain ⟨k, hk1, hk23, hkeq⟩ := new_capacity_pow n
  have hcap := new_buf_length n
  refine ⟨⟨⟨k, hkeq⟩, ?_, ?_⟩, ?_, ?_⟩
  · rw [hkeq]
    calc (2:Nat) = 2 ^ 1 := (pow_one 2).symm
    _ ≤ 2 ^ k := Nat.pow_le_pow_right (by omega) hk1
  · rw [hkeq]
    exact Nat.pow_le_pow_right (by omega) hk23
  · intro hn
    have hge := npot_ge n (by omega)
    have hle := npot_le_pow n 23 hn
    constructor
    · rw [hcap]
      omega
    · intro c hc1 hc2
      have hlec := npot_le_pow n c hc1
      rw [hcap]
      omega
  · intro hn
    have hmin := npot_ge_min n
    rw [hcap]
    omega

/-- C3 witness: at `min_capacity = 5` the capacity is at least 5 and at
most `2^3 = 8`, the smallest admissible power of two. -/
theorem C3_capacity_normalization_witness :
    5 ≤ (HistoryBuffer.new 5).buf.length ∧
    (HistoryBuffer.new 5).buf.length ≤ 2 ^ 3 :=
  ⟨((C3_capacity_normalization 5).2.1 (by norm_num)).1,
    ((C3_capacity_normalization 5).2.1 (by norm_num)).2 3 (by norm_num) (by norm_num)⟩

/-- C4: after any sequence of `add`/`clear`/`clear_at` calls starting from a
fresh buffer, `get_index() + get_len() = write_cursor`, `get_len()` is at
most the capacity, and `get_len() ≤ write_cursor` (so the subtraction
`write_cursor - retained_length` never underflows). -/
theorem C4_cursor_length_invariant (c : Nat) (ops : List Op) :
    (runOps (HistoryBuffer.new c) ops).get_index
        + (runOps (HistoryBuffer.new c) ops).get_len
      = (runOps (HistoryBuffer.new c) ops).next_running ∧
    (runOps (HistoryBuffer.new c) ops).get_len
      ≤ (runOps (HistoryBuffer.new c) ops).buf.length ∧
    (runOps (HistoryBuffer.new c) ops).get_len
      ≤ (runOps (HistoryBuffer.new c) ops).next_running := by
  obtain ⟨hbuf, -, -, hrun, hlenh, hlenB, -⟩ := reach_inv c ops
  have hgi : (runOps (HistoryBuffer.new c) ops).get_index
      = (runOps (HistoryBuffer.new c) ops).next_running
        - (runOps (HistoryBuffer.new c) ops).len := rfl
  have hgl : (runOps (HistoryBuffer.new c) ops).get_len
      = (runOps (HistoryBuffer.new c) ops).len := rfl
  rw [hgi, hgl]
  omega

/-- The 21 bytes of the string `"The Terminal History."` used by the
spec's worked example (the spec asserts it has 22 bytes; it has 21). -/
def terminalHistoryBytes : List Nat :=
  [84, 104, 101, 32, 84, 101, 114, 109, 105, 110, 97, 108, 32,
   72, 105, 115, 116, 111, 114, 121, 46]

/-- C5 counterexample: the example string has 21 bytes, not 22, and after
appending it to a capacity-8 buffer `get_index()` returns 13, not 14 as the
claim states. -/
theorem C5_counterexample :
    terminalHistoryBytes.length = 21 ∧
    ((HistoryBuffer.new 8).add terminalHistoryBytes).get_index ≠ 14 := by
  decide

/-- C5 amended: for a capacity-8 buffer, after appending the 21-byte string
`"The Terminal History."`: `get_index() = 13`, `last_byte() = '.'`,
`get_vec(13, 8) = "History."`, `get(13) = 'H'`, and `get(12)` is absent. -/
theorem C5_example_amended :
    terminalHistoryBytes.length = 21 ∧
    ((HistoryBuffer.new 8).add terminalHistoryBytes).get_index = 13 ∧
    ((HistoryBuffer.new 8).add terminalHistoryBytes).last_byte = some 46 ∧
    ((HistoryBuffer.new 8).add terminalHistoryBytes).get_vec 13 8
      = [72, 105, 115, 116, 111, 114, 121, 46] ∧
    ((HistoryBuffer.new 8).add terminalHistoryBytes).get 13 = some 72 ∧
    ((HistoryBuffer.new 8).add terminalHistoryBytes).get 12 = none := by
  decide

/-- C7: `get_last_index()` returns `write_cursor - 1` when the retained
length is positive, and collapses to `oldest_visible_offset` (which then
equals `write_cursor`) when the retained length is zero, without signaling
absence. -/
theorem C7_get_last_index_spec (hb : HistoryBuffer) :
    (0 < hb.len → hb.get_last_index = hb.next_running - 1) ∧
    (hb.len = 0 →
      hb.get_last_index = hb.next_running - hb.len ∧
      hb.get_last_index = hb.next_running) := by
  have hdef : hb.get_last_index
      = max (hb.next_running - 1) (hb.next_running - hb.len) := rfl
  refine ⟨fun h => by rw [hdef]; omega,
    fun h => ⟨by rw [hdef]; omega, by rw [hdef]; omega⟩⟩

/-- C7 witness: on a buffer holding 3 bytes at cursor 3 the last index is 2,
and on a fresh (empty) buffer it is the cursor 0. -/
theorem C7_get_last_index_spec_witness :
    (runOps (HistoryBuffer.new 4) [Op.add [1, 2, 3]]).get_last_index = 2 ∧
    (HistoryBuffer.new 4).get_last_index = 0 := by
  constructor
  · have h := (C7_get_last_index_spec
      (runOps (HistoryBuffer.new 4) [Op.add [1, 2, 3]])).1 (by decide)
    rw [h]
    decide
  · have h := ((C7_get_last_index_spec (HistoryBuffer.new 4)).2 (by decide)).2
    rw [h]
    decide

/-- C8: whenever the clipped window of `get_vec_and_index(s, m)` is empty,
the call returns the empty sequence paired with offset 0 (not with
`effective_start` and not with the requested `s`). -/
theorem C8_empty_result_offset_zero (hb : HistoryBuffer) (s m : Nat)
    (h : effEnd hb s m - effStart hb s m = 0) :
    hb.get_vec_and_index s m = ([], 0) := by
  rw [get_vec_and_index_eq, if_pos h, h]
  rfl

/-- C8 witness: reading past the end of a fresh buffer returns `([], 0)`. -/
theorem C8_empty_result_offset_zero_witness :
    (HistoryBuffer.new 2).get_vec_and_index 5 0 = ([], 0) :=
  C8_empty_result_offset_zero (HistoryBuffer.new 2) 5 0 (by decide)

/-- C9: `clear_at(x)` sets the retained length to
`min(retained_length, write_cursor - x)`; the length never grows, and the
call is a no-op (not an error) when `x` is at or before the oldest visible
offset.  The hypothesis `len ≤ write_cursor` holds on every reachable state
by the cursor/length invariant. -/
theorem C9_clear_at_spec (hb : HistoryBuffer) (x : Nat)
    (hlen : hb.len ≤ hb.next_running) :
    (hb.clear_at x).get_len = min hb.len (hb.next_running - x) ∧
    (hb.clear_at x).get_len ≤ hb.get_len ∧
    (x ≤ hb.get_index → hb.clear_at x = hb) := by
  have h1 : (hb.clear_at x).get_len = min (hb.next_running - x) hb.len := rfl
  have h2 : hb.get_len = hb.len := rfl
  refine ⟨by rw [h1]; omega, by rw [h1, h2]; omega, ?_⟩
  intro hx
  have h3 : hb.get_index = hb.next_running - hb.len := rfl
  rw [h3] at hx
  have hmin : min (hb.next_running - x) hb.len = hb.len := by omega
  show { hb with len := min (hb.next_running - x) hb.len } = hb
  rw [hmin]

/-- C9 witness: on a buffer with 1 retained byte at cursor 3,
`clear_at 1` keeps the length formula and is a no-op since 1 is before the
oldest visible offset 2. -/
theorem C9_clear_at_spec_witness :
    ((HistoryBuffer.mk [0, 0] 1 1 3).clear_at 1).get_len
        = min (HistoryBuffer.mk [0, 0] 1 1 3).len
            ((HistoryBuffer.mk [0, 0] 1 1 3).next_running - 1) ∧
    (HistoryBuffer.mk [0, 0] 1 1 3).clear_at 1 = HistoryBuffer.mk [0, 0] 1 1 3 := by
  have h := C9_clear_at_spec (HistoryBuffer.mk [0, 0] 1 1 3) 1 (by decide)
  exact ⟨h.1, h.2.2 (by decide)⟩

/-- C10: for `new_start_offset` strictly beyond the write cursor,
`clear_at` saturates and sets the retained length to 0 instead of
underflowing. -/
theorem C10_clear_at_saturates (hb : HistoryBuffer) (x : Nat)
    (hx : hb.next_running < x) : (hb.clear_at x).get_len = 0 := by
  have h1 : (hb.clear_at x).get_len = min (hb.next_running - x) hb.len := rfl
  rw [h1]
  omega

/-- C10 witness: clearing at offset 7 on a cursor-3 buffer empties it. -/
theorem C10_clear_at_saturates_witness :
    ((HistoryBuffer.mk [0, 0] 1 1 3).clear_at 7).get_len = 0 :=
  C10_clear_at_saturates (HistoryBuffer.mk [0, 0] 1 1 3) 7 (by decide)

/-- C6: `get_recent(max_len)` returns exactly the bytes of
`get_vec_and_index(write_cursor - min(max_len, retained_length), max_len)`
(the implementation passes `min(max_len, retained_length)` as the second
argument, but the clipped window is the same). -/
theorem C6_get_recent_equiv (hb : HistoryBuffer) (max_len : Nat) :
    hb.get_recent max_len
      = (hb.get_vec_and_index (hb.next_running - min max_len hb.len) max_len).1 := by
  rw [get_recent_eq, get_vec_and_index_eq, get_vec_and_index_eq]
  have he : effEnd hb (hb.next_running - min max_len hb.len) (min max_len hb.len)
      = effEnd hb (hb.next_running - min max_len hb.len) max_len := by
    simp only [effEnd]
    omega
  have hs : effStart hb (hb.next_running - min max_len hb.len) (min max_len hb.len)
      = effStart hb (hb.next_running - min max_len hb.len) max_len := by
    simp only [effStart]
    rw [he]
  rw [he, hs]

/-- C2: on every reachable state, `get_vec_and_index(s, m)` returns at most
`m` bytes; when the result is non-empty its offset is exactly
`effective_start = min(max(s, oldest_visible_offset), min(s + m,
write_cursor))`, all returned bytes lie at logical offsets in
`[get_index(), write_cursor)`, and byte `t` is the historical byte at
logical offset `offset + t`. -/
theorem C2_clip_correct (c : Nat) (ops : List Op) (s m : Nat) :
    ((runOps (HistoryBuffer.new c) ops).get_vec_and_index s m).1.length ≤ m ∧
    (((runOps (HistoryBuffer.new c) ops).get_vec_and_index s m).1 ≠ [] →
      ((runOps (HistoryBuffer.new c) ops).get_vec_and_index s m).2
          = min (max s ((runOps (HistoryBuffer.new c) ops).get_index))
              (min (s + m) (runOps (HistoryBuffer.new c) ops).next_running) ∧
      (runOps (HistoryBuffer.new c) ops).get_index
          ≤ ((runOps (HistoryBuffer.new c) ops).get_vec_and_index s m).2 ∧
      ((runOps (HistoryBuffer.new c) ops).get_vec_and_index s m).2
          + ((runOps (HistoryBuffer.new c) ops).get_vec_and_index s m).1.length
        ≤ (runOps (HistoryBuffer.new c) ops).next_running ∧
      (∀ t, t < ((runOps (HistoryBuffer.new c) ops).get_vec_and_index s m).1.length →
        ((runOps (HistoryBuffer.new c) ops).get_vec_and_index s m).1.getD t 0
          = (history ops).getD
              (((runOps (HistoryBuffer.new c) ops).get_vec_and_index s m).2 + t) 0)) := by
  obtain ⟨hbuf, hmask, hpow, hrun, hlenh, hlenB, hcont⟩ := reach_inv c ops
  obtain ⟨hlen, hbytes, hsnd⟩ := get_vec_and_index_spec
    (runOps (HistoryBuffer.new c) ops) ((HistoryBuffer.new c).buf.length)
    hbuf hmask hpow hlenB s m
  have hend_def : effEnd (runOps (HistoryBuffer.new c) ops) s m
      = min (s + m) (runOps (HistoryBuffer.new c) ops).next_running := rfl
  have hstart_def : effStart (runOps (HistoryBuffer.new c) ops) s m
      = min (max s ((runOps (HistoryBuffer.new c) ops).next_running
          - (runOps (HistoryBuffer.new c) ops).len))
        (effEnd (runOps (HistoryBuffer.new c) ops) s m) := rfl
  have hgi : (runOps (HistoryBuffer.new c) ops).get_index
      = (runOps (HistoryBuffer.new c) ops).next_running
        - (runOps (HistoryBuffer.new c) ops).len := rfl
  constructor
  · rw [hlen]
    omega
  · intro hne
    have hpos : 0 < ((runOps (HistoryBuffer.new c) ops).get_vec_and_index s m).1.length :=
      List.length_pos.mpr hne
    rw [hlen] at hpos
    have hsnd2 : ((runOps (HistoryBuffer.new c) ops).get_vec_and_index s m).2
        = effStart (runOps (HistoryBuffer.new c) ops) s m := by
      rw [hsnd, if_neg (by omega)]
    refine ⟨?_, ?_, ?_, ?_⟩
    · rw [hsnd2, hgi]
      rw [hstart_def, hend_def]
    · rw [hsnd2, hgi]
      omega
    · rw [hsnd2, hlen]
      omega
    · intro t ht
      rw [hlen] at ht
      rw [hsnd2, hbytes t ht]
      have hwin1 : (runOps (HistoryBuffer.new c) ops).next_running
            - (runOps (HistoryBuffer.new c) ops).len
          ≤ effStart (runOps (HistoryBuffer.new c) ops) s m + t := by
        omega
      have hwin2 : effStart (runOps (HistoryBuffer.new c) ops) s m + t
          < (runOps (HistoryBuffer.new c) ops).next_running := by
        omega
      exact hcont _ hwin1 hwin2

/-- C2 witness: a concrete clipped read on a 3-byte history. -/
theorem C2_clip_correct_witness :
    ((runOps (HistoryBuffer.new 4) [Op.add [1, 2, 3]]).get_vec_and_index 1 5).1.length ≤ 5 ∧
    ((runOps (HistoryBuffer.new 4) [Op.add [1, 2, 3]]).get_vec_and_index 1 5).1.getD 1 0
      = (history [Op.add [1, 2, 3]]).getD
          (((runOps (HistoryBuffer.new 4) [Op.add [1, 2, 3]]).get_vec_and_index 1 5).2 + 1) 0 := by
  have h := C2_clip_correct 4 [Op.add [1, 2, 3]] 1 5
  exact ⟨h.1, (h.2 (by decide)).2.2.2 1 (by decide)⟩

theorem add_next_running (hb : HistoryBuffer) (d : List Nat) :
    (hb.add d).next_running = hb.next_running + d.length := by
  rcases eq_or_ne d [] with rfl | hd
  · rfl
  · have hde : d.isEmpty = false := by
      cases d with
      | nil => exact absurd rfl hd
      | cons a l => rfl
    exact (add_fields hb d hde).1

/-- C1: after any `add(d)` on a reachable state, every logical offset `i` in
the retained window satisfies `storage[i &&& mask] = byte i of everything
ever appended`; consequently, if the bytes written by this call are not
evicted by the call itself, `get_vec(offset_before_add, d.length)` returns
exactly `d`. -/
theorem C1_add_history_invariant (c : Nat) (ops : List Op) (d : List Nat) :
    (∀ i, ((runOps (HistoryBuffer.new c) ops).add d).next_running
          - ((runOps (HistoryBuffer.new c) ops).add d).len ≤ i →
        i < ((runOps (HistoryBuffer.new c) ops).add d).next_running →
        ((runOps (HistoryBuffer.new c) ops).add d).buf.getD
            (i &&& ((runOps (HistoryBuffer.new c) ops).add d).mask) 0
          = (history ops ++ d).getD i 0) ∧
    (d.length ≤ ((runOps (HistoryBuffer.new c) ops).add d).len →
      ((runOps (HistoryBuffer.new c) ops).add d).get_vec
          (runOps (HistoryBuffer.new c) ops).next_running d.length = d) := by
  have hinv2 : BufInv ((HistoryBuffer.new c).buf.length)
      ((runOps (HistoryBuffer.new c) ops).add d) (history ops ++ d) :=
    inv_add _ _ _ d (reach_inv c ops)
  obtain ⟨hbuf2, hmask2, hpow, hrun2, hlenh2, hlenB2, hcont2⟩ := hinv2
  have hland := land_mask_eq_mod ((runOps (HistoryBuffer.new c) ops).add d)
    ((HistoryBuffer.new c).buf.length) hmask2 hpow
  constructor
  · intro i h1 h2
    rw [hland i]
    exact hcont2 i h1 h2
  · intro hle
    have hW2 : ((runOps (HistoryBuffer.new c) ops).add d).next_running
        = (runOps (HistoryBuffer.new c) ops).next_running + d.length :=
      add_next_running _ d
    obtain ⟨hlen, hbytes, -⟩ := get_vec_and_index_spec
      ((runOps (HistoryBuffer.new c) ops).add d) ((HistoryBuffer.new c).buf.length)
      hbuf2 hmask2 hpow hlenB2
      (runOps (HistoryBuffer.new c) ops).next_running d.length
    have hend : effEnd ((runOps (HistoryBuffer.new c) ops).add d)
        (runOps (HistoryBuffer.new c) ops).next_running d.length
        = (runOps (HistoryBuffer.new c) ops).next_running + d.length := by
      show min ((runOps (HistoryBuffer.new c) ops).next_running + d.length)
          ((runOps (HistoryBuffer.new c) ops).add d).next_running
        = (runOps (HistoryBuffer.new c) ops).next_running + d.length
      rw [hW2]
      omega
    have hstart : effStart ((runOps (HistoryBuffer.new c) ops).add d)
        (runOps (HistoryBuffer.new c) ops).next_running d.length
        = (runOps (HistoryBuffer.new c) ops).next_running := by
      show min (max (runOps (HistoryBuffer.new c) ops).next_running
            (((runOps (HistoryBuffer.new c) ops).add d).next_running
              - ((runOps (HistoryBuffer.new c) ops).add d).len))
          (effEnd ((runOps (HistoryBuffer.new c) ops).add d)
            (runOps (HistoryBuffer.new c) ops).next_running d.length)
        = (runOps (HistoryBuffer.new c) ops).next_running
      rw [hend, hW2]
      omega
    have hgv : ((runOps (HistoryBuffer.new c) ops).add d).get_vec
          (runOps (HistoryBuffer.new c) ops).next_running d.length
        = (((runOps (HistoryBuffer.new c) ops).add d).get_vec_and_index
            (runOps (HistoryBuffer.new c) ops).next_running d.length).1 := rfl
    rw [hgv]
    apply list_eq_of_getD
    · rw [hlen, hend, hstart]
      omega
    · intro t ht
      rw [hlen, hend, hstart] at ht
      have htn : t < d.length := by omega
      rw [hbytes t (by rw [hend, hstart]; omega), hstart]
      have hhist : (history ops).length
          = (runOps (HistoryBuffer.new c) ops).next_running := by
        obtain ⟨-, -, -, hrun1, -, -, -⟩ := reach_inv c ops
        omega
      rw [hcont2 ((runOps (HistoryBuffer.new c) ops).next_running + t)
        (by omega) (by omega)]
      rw [getD_append_right _ _ _ (by omega)]
      congr 1
      omega

/-- C1 witness: on a capacity-4 buffer holding `[1,2,3]`, after adding
`[9,9]` (which wraps), offset 3 reads back the history byte 9, and
`get_vec(3, 2)` returns exactly `[9, 9]`. -/
theorem C1_add_history_invariant_witness :
    ((runOps (HistoryBuffer.new 4) [Op.add [1, 2, 3]]).add [9, 9]).buf.getD
        (3 &&& ((runOps (HistoryBuffer.new 4) [Op.add [1, 2, 3]]).add [9, 9]).mask) 0
      = (history [Op.add [1, 2, 3]] ++ [9, 9]).getD 3 0 ∧
    ((runOps (HistoryBuffer.new 4) [Op.add [1, 2, 3]]).add [9, 9]).get_vec
        (runOps (HistoryBuffer.new 4) [Op.add [1, 2, 3]]).next_running 2 = [9, 9] := by
  have h := C1_add_history_invariant 4 [Op.add [1, 2, 3]] [9, 9]
  exact ⟨h.1 3 (by decide) (by decide), h.2 (by decide)⟩
